import Mathlib

/-!
Verification of the CSR sparse-matrix library (CSR_Interface.h).

The repository ships only the C interface header; every operation below is
therefore modelled from the specification, faithful to its words: the CSR
store (row pointers, column indices, values, dimensions), construction from
coordinate triples, matrix-vector multiplication, bandwidth, the Reverse
Cuthill-McKee reordering engine, and the permutation applier.  Matrix values
(C `double`) are modelled as exact rationals.
-/

/-- Modelled from the spec: the error taxonomy of section 7.  The C header
gives no error type; the spec names the three recoverable error kinds. -/
inductive CSRError where
  | InvalidIndex
  | DuplicateEntry
  | DimensionMismatch
deriving DecidableEq, Repr

/-- Modelled from the spec: the CSR Store data model of section 3.  The C
struct `CSR_Handle` is opaque in the header; the spec describes the three
parallel arrays plus dimensions. -/
structure CSR where
  numRows : Nat
  numCols : Nat
  rowStart : List Nat
  colIndex : List Nat
  values : List ℚ
deriving DecidableEq, Repr

namespace CSR

/-- Row `r` of the store: the slice of (column, value) pairs delimited by
`rowStart[r] .. rowStart[r+1])`, per the spec's CSR data model. -/
def row (A : CSR) (r : Nat) : List (Nat × ℚ) :=
  ((A.colIndex.zip A.values).drop (A.rowStart.getD r 0)).take
    (A.rowStart.getD (r + 1) 0 - A.rowStart.getD r 0)

/-- All stored entries as (row, column, value) triples, row by row. -/
def nonzeros (A : CSR) : List (Nat × Nat × ℚ) :=
  ((List.range A.numRows).map (fun r => (A.row r).map (fun cv => (r, cv.1, cv.2)))).flatten

/-- The dense entry at (r, c): the value stored at column c of row r, or 0. -/
def entry (A : CSR) (r c : Nat) : ℚ :=
  (((A.row r).find? (fun cv => cv.1 == c)).map Prod.snd).getD 0

/-- Modelled from the spec: the symmetrized adjacency view of section 3 —
`u` is adjacent to `v` iff `u ≠ v` and `A[u][v] ≠ 0` or `A[v][u] ≠ 0`. -/
def adjB (A : CSR) (u v : Nat) : Bool :=
  u != v && (A.entry u v != 0 || A.entry v u != 0)

/-- The adjacent vertices of `u`, in ascending order. -/
def neighbors (A : CSR) (u : Nat) : List Nat :=
  (List.range A.numRows).filter (fun v => A.adjB u v)

/-- Modelled from the spec: degree of a vertex = number of distinct adjacent
vertices in the symmetrized view, self-loops excluded (section 4.4 step 1). -/
def degree (A : CSR) (u : Nat) : Nat :=
  (A.neighbors u).length

/-- Well-formedness of a CSR store, per the invariants of section 3:
array lengths match the dimensions, `rowStart` is zero-based, non-decreasing
and ends at the nonzero count, column indices are in range, and within a row
column indices are unique. -/
abbrev WF (A : CSR) : Prop :=
  A.rowStart.length = A.numRows + 1 ∧
  A.values.length = A.colIndex.length ∧
  A.rowStart.getD 0 0 = 0 ∧
  A.rowStart.getD A.numRows 0 = A.colIndex.length ∧
  List.Pairwise (· ≤ ·) A.rowStart ∧
  (∀ c ∈ A.colIndex, c < A.numCols) ∧
  ∀ r < A.numRows, ((A.row r).map Prod.fst).Nodup

end CSR

/-- Assemble a CSR store from per-row lists of (column, value) pairs:
`rowStart` by prefix sums of the row lengths, `colIndex`/`values` by
concatenating the rows — the scatter step of the spec's Build (section 4.1). -/
def buildCSR (n m : Nat) (blocks : List (List (Nat × ℚ))) : CSR :=
  { numRows := n
    numCols := m
    rowStart := (List.range (n + 1)).map (fun r => ((blocks.take r).map List.length).sum)
    colIndex := blocks.flatten.map Prod.fst
    values := blocks.flatten.map Prod.snd }

/-- Modelled from the spec: the grouping step of Build (section 4.1) — group
coordinate triples by row, keeping input order within each row. -/
def buildFromTriples (n m : Nat) (ts : List (Nat × Nat × ℚ)) : CSR :=
  buildCSR n m
    ((List.range n).map (fun r => (ts.filter (fun t => t.1 = r)).map (fun t => (t.2.1, t.2.2))))

/-- Modelled from the spec: `CSR_Create` (section 4.1 Build), whose body is
absent from the repository.  Rejects out-of-range indices with `InvalidIndex`,
duplicate (row, col) pairs with `DuplicateEntry`, and otherwise groups the
coordinate triples by row. -/
def CSR_Create (numRows numCols : Nat) (ts : List (Nat × Nat × ℚ)) : Except CSRError CSR :=
  if ∀ t ∈ ts, t.1 < numRows ∧ t.2.1 < numCols then
    if (ts.map (fun t => (t.1, t.2.1))).Nodup then
      Except.ok (buildFromTriples numRows numCols ts)
    else Except.error CSRError.DuplicateEntry
  else Except.error CSRError.InvalidIndex

/-- Modelled from the spec: `CSR_MultiplyWithVector` (section 4.2), whose body
is absent from the repository.  `y[r]` is the sum over row r's stored entries
(c, v) of `v * x[c]`; a wrong-length `x` is a `DimensionMismatch`. -/
def CSR_MultiplyWithVector (A : CSR) (x : List ℚ) : Except CSRError (List ℚ) :=
  if x.length = A.numCols then
    Except.ok ((List.range A.numRows).map
      (fun r => ((A.row r).map (fun cv => cv.2 * x.getD cv.1 0)).sum))
  else Except.error CSRError.DimensionMismatch

/-- Modelled from the spec: `CSR_GetBandwidth` (section 4.3), whose body is
absent from the repository — the maximum of `|r - c|` over stored entries,
0 when there are none. -/
def CSR_GetBandwidth (A : CSR) : Nat :=
  (A.nonzeros.map (fun t => ((t.1 : ℤ) - (t.2.1 : ℤ)).natAbs)).foldr max 0

/-- Modelled from the spec: `CSR_Permute` (section 4.5), whose body is absent
from the repository.  New row `nr` takes old row `perm[nr]`; each old column
`oc` becomes `inversePerm[oc]`; the collected triples are regrouped by the
same process as Build, skipping validation.  A wrong-length permutation is a
`DimensionMismatch`. -/
def CSR_Permute (A : CSR) (perm inversePerm : List Nat) : Except CSRError CSR :=
  if perm.length = A.numRows ∧ inversePerm.length = A.numRows then
    Except.ok (buildFromTriples A.numRows A.numCols
      (((List.range A.numRows).map (fun nr =>
        (A.row (perm.getD nr 0)).map (fun cv => (nr, inversePerm.getD cv.1 0, cv.2)))).flatten))
  else Except.error CSRError.DimensionMismatch

/-- Validity of a permutation pair, per section 3 of the spec: both sequences
have length n, `perm` is a bijection on `[0, n)` and `inversePerm[perm[i]] = i`. -/
abbrev ValidPair (n : Nat) (perm inversePerm : List Nat) : Prop :=
  perm.length = n ∧ inversePerm.length = n ∧ perm.Perm (List.range n) ∧
    ∀ i < n, inversePerm.getD (perm.getD i 0) 0 = i

/-- The BFS visiting order key of the spec (section 4.4): ascending degree,
ties broken by ascending original vertex index. -/
def keyLe (A : CSR) (u v : Nat) : Prop :=
  A.degree u < A.degree v ∨ (A.degree u = A.degree v ∧ u ≤ v)

instance (A : CSR) : DecidableRel (keyLe A) := fun u v => by
  unfold keyLe; infer_instance

/-- Sort a list of vertices by (degree, index), the spec's tie-breaking order. -/
def sortKey (A : CSR) (l : List Nat) : List Nat :=
  List.insertionSort (keyLe A) l

/-- Modelled from the spec: one BFS level (section 4.4 step 2.2) — the
frontier's distinct unvisited neighbors, ordered by ascending degree with
ties broken by ascending index. -/
def nextLevel (A : CSR) (remaining frontier : List Nat) : List Nat :=
  sortKey A (((frontier.map A.neighbors).flatten.filter (fun v => v ∈ remaining)).dedup)

/-- Modelled from the spec: the level-structure BFS of one component
(section 4.4 step 2.2), appending each level as discovered; returns the
visiting order of the levels after the root and the vertices left unvisited.
Fuel bounds the number of levels; `remaining.length` is always enough. -/
def bfsLoop (A : CSR) : Nat → List Nat → List Nat → List Nat × List Nat
  | 0, _, remaining => ([], remaining)
  | Nat.succ fuel, frontier, remaining =>
    let next := nextLevel A remaining frontier
    if next = [] then ([], remaining)
    else
      let res := bfsLoop A fuel next (remaining.filter (fun v => v ∉ next))
      (next ++ res.1, res.2)

/-- Modelled from the spec: the outer component loop (section 4.4 step 2) —
while unvisited vertices remain, root a BFS at the unvisited vertex of
minimum degree (ties by smallest index) and exhaust its component.  Fuel
bounds the number of components; `remaining.length` is always enough. -/
def cmLoop (A : CSR) : Nat → List Nat → List Nat
  | 0, _ => []
  | Nat.succ fuel, remaining =>
    match sortKey A remaining with
    | [] => []
    | root :: _ =>
      let remaining1 := remaining.filter (fun v => v ≠ root)
      let res := bfsLoop A remaining1.length [root] remaining1
      root :: (res.1 ++ cmLoop A fuel res.2)

/-- The Cuthill-McKee visiting order of the whole graph (section 4.4 step 2). -/
def CM_order (A : CSR) : List Nat :=
  cmLoop A A.numRows (List.range A.numRows)

/-- Modelled from the spec: `CSR_GetRCMPemutation` (section 4.4), whose body
is absent from the repository — the Cuthill-McKee order reversed (step 3),
paired with the inverse permutation `inversePerm[perm[i]] = i` (step 4). -/
def CSR_GetRCMPemutation (A : CSR) : List Nat × List Nat :=
  let perm := (CM_order A).reverse
  (perm, (List.range A.numRows).map (fun v => perm.indexOf v))

lemma map_range_getD {α : Type} (f : Nat → α) (d : α) {n i : Nat} (h : i < n) :
    ((List.range n).map f).getD i d = f i := by
  rw [List.getD_eq_getElem?_getD, List.getElem?_eq_getElem (by simpa using h)]
  simp

lemma zip_map_fst_snd {α β : Type} (l : List (α × β)) :
    (l.map Prod.fst).zip (l.map Prod.snd) = l := by
  induction l with
  | nil => rfl
  | cons a l ih => simpa using ih

lemma sum_take_succ {α : Type} (f : List α → Nat) (b : List α) (bs : List (List α)) (r : Nat) :
    (((b :: bs).take (r + 1)).map f).sum = f b + ((bs.take r).map f).sum := by
  simp

lemma flatten_slice {α : Type} :
    ∀ (blocks : List (List α)) (r : Nat), r < blocks.length →
      (blocks.flatten.drop (((blocks.take r).map List.length).sum)).take
          ((((blocks.take (r + 1)).map List.length).sum) - ((blocks.take r).map List.length).sum)
        = blocks.getD r []
  | [], r, h => by simp at h
  | b :: bs, 0, _ => by
    simp [List.take_left']
  | b :: bs, r + 1, h => by
    have hr : r < bs.length := by simpa using h
    have h1 : (((b :: bs).take (r + 1)).map List.length).sum
        = b.length + ((bs.take r).map List.length).sum := sum_take_succ _ _ _ _
    have h2 : (((b :: bs).take (r + 2)).map List.length).sum
        = b.length + ((bs.take (r + 1)).map List.length).sum := sum_take_succ _ _ _ _
    have h3 : (b :: bs).flatten = b ++ bs.flatten := by simp
    rw [h3, h1, h2, Nat.add_sub_add_left, List.drop_append, List.getD_cons_succ]
    exact flatten_slice bs r hr

lemma buildCSR_row (n m : Nat) (blocks : List (List (Nat × ℚ)))
    (h : blocks.length = n) (r : Nat) (hr : r < n) :
    (buildCSR n m blocks).row r = blocks.getD r [] := by
  unfold buildCSR CSR.row
  simp only
  rw [zip_map_fst_snd, map_range_getD _ _ (by omega), map_range_getD _ _ (by omega)]
  exact flatten_slice blocks r (h ▸ hr)

lemma buildFromTriples_row (n m : Nat) (ts : List (Nat × Nat × ℚ)) (r : Nat) (hr : r < n) :
    (buildFromTriples n m ts).row r
      = (ts.filter (fun t => t.1 = r)).map (fun t => (t.2.1, t.2.2)) := by
  unfold buildFromTriples
  rw [buildCSR_row n m _ (by simp) r hr, List.getD_eq_getElem?_getD,
    List.getElem?_eq_getElem (by simpa using hr)]
  simp

lemma grouped_filter (f : Nat → List (Nat × ℚ)) :
    ∀ n r0 : Nat, r0 < n →
      (((List.range n).map (fun r => (f r).map (fun cv => (r, cv.1, cv.2)))).flatten.filter
          (fun t => t.1 = r0))
        = (f r0).map (fun cv => (r0, cv.1, cv.2)) := by
  intro n
  induction n with
  | zero => omega
  | succ n ih =>
    intro r0 hr0
    rw [List.range_succ]
    simp only [List.map_append, List.flatten_append, List.filter_append, List.map_cons,
      List.map_nil, List.flatten_cons, List.flatten_nil, List.append_nil]
    rcases Nat.lt_or_ge r0 n with h | h
    · rw [ih r0 h]
      have : ((f n).map (fun cv => (n, cv.1, cv.2))).filter (fun t => t.1 = r0) = [] := by
        rw [List.filter_eq_nil_iff]
        intro t ht
        rcases List.mem_map.mp ht with ⟨cv, _, rfl⟩
        simp only [decide_eq_true_eq]
        omega
      rw [this, List.append_nil]
    · have hr : r0 = n := by omega
      subst hr
      have h1 : (((List.range r0).map
          (fun r => (f r).map (fun cv => (r, cv.1, cv.2)))).flatten.filter
            (fun t => t.1 = r0)) = [] := by
        rw [List.filter_eq_nil_iff]
        intro t ht
        rcases List.mem_flatten.mp ht with ⟨l, hl, htl⟩
        rcases List.mem_map.mp hl with ⟨r, hrn, rfl⟩
        rcases List.mem_map.mp htl with ⟨cv, _, rfl⟩
        simp only [decide_eq_true_eq]
        have := List.mem_range.mp hrn
        omega
      have h2 : ((f r0).map (fun cv => (r0, cv.1, cv.2))).filter (fun t => t.1 = r0)
          = (f r0).map (fun cv => (r0, cv.1, cv.2)) := by
        rw [List.filter_eq_self]
        intro t ht
        rcases List.mem_map.mp ht with ⟨cv, _, rfl⟩
        simp
      rw [h1, h2, List.nil_append]

lemma split_perm {rem next : List Nat} (hnd : rem.Nodup) (hnn : next.Nodup)
    (hsub : ∀ v ∈ next, v ∈ rem) :
    rem.Perm (next ++ rem.filter (fun v => v ∉ next)) := by
  rw [List.perm_iff_count]
  intro a
  rw [List.count_append]
  by_cases ha : a ∈ next
  · have h0 : a ∉ rem.filter (fun v => v ∉ next) := by
      intro hmem
      have h2 := (List.mem_filter.mp hmem).2
      simp only [decide_eq_true_eq] at h2
      exact h2 ha
    rw [List.count_eq_one_of_mem hnn ha, List.count_eq_one_of_mem hnd (hsub a ha),
      List.count_eq_zero.mpr h0]
  · rw [List.count_eq_zero.mpr ha, List.count_filter (by simpa using ha), Nat.zero_add]

lemma nextLevel_nodup (A : CSR) (rem fr : List Nat) : (nextLevel A rem fr).Nodup :=
  ((List.perm_insertionSort (keyLe A) _).nodup_iff).mpr (List.nodup_dedup _)

lemma nextLevel_subset (A : CSR) (rem fr : List Nat) : ∀ v ∈ nextLevel A rem fr, v ∈ rem := by
  intro v hv
  have h1 := (List.perm_insertionSort (keyLe A) _).mem_iff.mp hv
  rw [List.mem_dedup, List.mem_filter] at h1
  simpa using h1.2

lemma bfsLoop_perm (A : CSR) : ∀ (fuel : Nat) (frontier remaining : List Nat),
    remaining.Nodup →
    remaining.Perm ((bfsLoop A fuel frontier remaining).1 ++ (bfsLoop A fuel frontier remaining).2)
  | 0, frontier, remaining, _ => by simp [bfsLoop]
  | Nat.succ fuel, frontier, remaining, hnd => by
    rw [bfsLoop]
    by_cases hn : nextLevel A remaining frontier = []
    · simp [hn]
    · simp only [hn, if_neg, reduceIte]
      have hsplit : remaining.Perm
          (nextLevel A remaining frontier
            ++ remaining.filter (fun v => v ∉ nextLevel A remaining frontier)) :=
        split_perm hnd (nextLevel_nodup A remaining frontier) (nextLevel_subset A remaining frontier)
      have hnd2 : (remaining.filter (fun v => v ∉ nextLevel A remaining frontier)).Nodup :=
        hnd.filter _
      have ih := bfsLoop_perm A fuel (nextLevel A remaining frontier)
        (remaining.filter (fun v => v ∉ nextLevel A remaining frontier)) hnd2
      simpa [List.append_assoc] using
        hsplit.trans (ih.append_left (nextLevel A remaining frontier))

lemma cmLoop_perm (A : CSR) : ∀ (fuel : Nat) (remaining : List Nat),
    remaining.Nodup → remaining.length ≤ fuel →
    remaining.Perm (cmLoop A fuel remaining)
  | 0, remaining, _, hl => by
    have h0 : remaining = [] := List.length_eq_zero.mp (Nat.le_zero.mp hl)
    simp [cmLoop, h0]
  | Nat.succ fuel, remaining, hnd, hl => by
    rcases hs : sortKey A remaining with _ | ⟨root, t⟩
    · have hp := List.perm_insertionSort (keyLe A) remaining
      rw [show List.insertionSort (keyLe A) remaining = sortKey A remaining from rfl, hs] at hp
      have h0 : remaining = [] := hp.symm.eq_nil
      rw [cmLoop, hs, h0]
    · have hroot : root ∈ remaining := by
        have hp := List.perm_insertionSort (keyLe A) remaining
        rw [show List.insertionSort (keyLe A) remaining = sortKey A remaining from rfl, hs] at hp
        exact hp.mem_iff.mp (List.mem_cons_self root t)
    -- split off the root
      have hsub : ∀ v ∈ [root], v ∈ remaining := by
        intro v hv; rw [List.mem_singleton] at hv; exact hv ▸ hroot
      have hbridge : remaining.filter (fun v => v ∉ [root])
          = remaining.filter (fun v => v ≠ root) := by
        apply List.filter_congr
        intro v _
        simp
      have hsplit : remaining.Perm (root :: remaining.filter (fun v => v ≠ root)) := by
        have := split_perm hnd (List.nodup_singleton root) hsub
        rw [hbridge] at this
        simpa using this
      have hnd1 : (remaining.filter (fun v => v ≠ root)).Nodup := hnd.filter _
      have hbfs := bfsLoop_perm A (remaining.filter (fun v => v ≠ root)).length [root]
        (remaining.filter (fun v => v ≠ root)) hnd1
      have hlen1 : remaining.length = (remaining.filter (fun v => v ≠ root)).length + 1 := by
        have := hsplit.length_eq
        simpa using this
      have hlen2 : (remaining.filter (fun v => v ≠ root)).length
          = (bfsLoop A (remaining.filter (fun v => v ≠ root)).length [root]
              (remaining.filter (fun v => v ≠ root))).1.length
            + (bfsLoop A (remaining.filter (fun v => v ≠ root)).length [root]
              (remaining.filter (fun v => v ≠ root))).2.length := by
        have := hbfs.length_eq
        simpa using this
      have hnd2 := ((hbfs.nodup_iff).mp hnd1).of_append_right
      have ihres := cmLoop_perm A fuel
        (bfsLoop A (remaining.filter (fun v => v ≠ root)).length [root]
          (remaining.filter (fun v => v ≠ root))).2 hnd2 (by omega)
      rw [cmLoop, hs]
      exact hsplit.trans ((hbfs.trans ((ihres).append_left _)).cons root)

lemma CM_order_perm (A : CSR) : (CM_order A).Perm (List.range A.numRows) :=
  (cmLoop_perm A A.numRows (List.range A.numRows) (List.nodup_range A.numRows) (by simp)).symm

lemma RCM_perm_perm (A : CSR) : (CSR_GetRCMPemutation A).1.Perm (List.range A.numRows) :=
  (List.reverse_perm (CM_order A)).trans (CM_order_perm A)

lemma RCM_perm_length (A : CSR) : (CSR_GetRCMPemutation A).1.length = A.numRows := by
  simpa using (RCM_perm_perm A).length_eq

lemma RCM_perm_nodup (A : CSR) : (CSR_GetRCMPemutation A).1.Nodup :=
  ((RCM_perm_perm A).nodup_iff).mpr (List.nodup_range A.numRows)

lemma RCM_inverse (A : CSR) : ∀ i < A.numRows,
    (CSR_GetRCMPemutation A).2.getD ((CSR_GetRCMPemutation A).1.getD i 0) 0 = i := by
  intro i hi
  have hlen : (CSR_GetRCMPemutation A).1.length = A.numRows := RCM_perm_length A
  have hi2 : i < (CSR_GetRCMPemutation A).1.length := by omega
  have hgd : (CSR_GetRCMPemutation A).1.getD i 0 = (CSR_GetRCMPemutation A).1[i] :=
    List.getD_eq_getElem _ _ hi2
  have hmem : (CSR_GetRCMPemutation A).1[i] ∈ List.range A.numRows :=
    (RCM_perm_perm A).mem_iff.mp (List.getElem_mem hi2)
  have hlt : (CSR_GetRCMPemutation A).1[i] < A.numRows := List.mem_range.mp hmem
  have hsnd : (CSR_GetRCMPemutation A).2
      = (List.range A.numRows).map (fun v => (CSR_GetRCMPemutation A).1.indexOf v) := rfl
  rw [hgd, hsnd, map_range_getD _ _ hlt]
  exact List.indexOf_getElem (RCM_perm_nodup A) i hi2

/-- The disconnected-graph scenario of the spec: two separate dense 3-vertex
blocks on 6 vertices, with no cross nonzeros. -/
def discA : CSR where
  numRows := 6
  numCols := 6
  rowStart := [0, 3, 6, 9, 12, 15, 18]
  colIndex := [0, 1, 2, 0, 1, 2, 0, 1, 2, 3, 4, 5, 3, 4, 5, 3, 4, 5]
  values := [1, 1, 1, 1, 1, 1, 1, 1, 1, 1, 1, 1, 1, 1, 1, 1, 1, 1]

/-- C1: for every well-formed CSR store, `CSR_GetRCMPemutation` produces a
pair with `inversePerm[perm[i]] = i` for every `i < numRows` and `perm` a
permutation of `[0, numRows)`; in particular every vertex of every connected
component is covered. -/
theorem rcm_pair_valid (A : CSR) (_hWF : A.WF) :
    (∀ i < A.numRows,
      (CSR_GetRCMPemutation A).2.getD ((CSR_GetRCMPemutation A).1.getD i 0) 0 = i) ∧
    (CSR_GetRCMPemutation A).1.Perm (List.range A.numRows) :=
  ⟨RCM_inverse A, RCM_perm_perm A⟩

/-- Witness for C1 at the spec's disconnected scenario: two dense 3-vertex
blocks, no cross nonzeros; the permutation pair is valid and covers all 6
vertices. -/
theorem rcm_pair_valid_witness :
    discA.WF ∧
    ((∀ i < discA.numRows,
      (CSR_GetRCMPemutation discA).2.getD ((CSR_GetRCMPemutation discA).1.getD i 0) 0 = i) ∧
    (CSR_GetRCMPemutation discA).1.Perm (List.range discA.numRows)) :=
  ⟨by decide, rcm_pair_valid discA (by decide)⟩

/-- C4: the permutation returned by `CSR_GetRCMPemutation` is the reversal of
the Cuthill-McKee order: `perm[newIndex] = CM order at position
numRows - 1 - newIndex`, where the CM order roots each BFS at the unvisited
vertex of minimum degree (ties by smallest index) and visits each level's
unvisited neighbors in ascending (degree, index) order; being a function of
the store alone, the output is deterministic. -/
theorem rcm_perm_is_reversed_cm (A : CSR) :
    ∀ i < A.numRows,
      (CSR_GetRCMPemutation A).1.getD i 0 = (CM_order A).getD (A.numRows - 1 - i) 0 := by
  intro i hi
  have hcm : (CM_order A).length = A.numRows := by
    simpa using (CM_order_perm A).length_eq
  have hi1 : i < (CM_order A).reverse.length := by simpa [hcm] using hi
  have hfst : (CSR_GetRCMPemutation A).1 = (CM_order A).reverse := rfl
  have hj : A.numRows - 1 - i < (CM_order A).length := by omega
  rw [hfst, List.getD_eq_getElem _ _ hi1, List.getD_eq_getElem _ _ (by omega),
    List.getElem_reverse]
  congr 1
  omega

/-- Witness for C4 at the disconnected scenario matrix. -/
theorem rcm_perm_is_reversed_cm_witness :
    (0 : Nat) < discA.numRows ∧
      (CSR_GetRCMPemutation discA).1.getD 0 0 = (CM_order discA).getD (discA.numRows - 1 - 0) 0 :=
  ⟨by decide, rcm_perm_is_reversed_cm discA 0 (by decide)⟩

lemma map_getD_self {α : Type} (l : List α) (d : α) :
    (List.range l.length).map (fun i => l.getD i d) = l := by
  apply List.ext_getElem (by simp)
  intro i h1 h2
  simp [List.getD_eq_getElem?_getD, List.getElem?_eq_getElem h2]

lemma validPair_perm_lt {n : Nat} {perm inv : List Nat} (hvp : ValidPair n perm inv) :
    ∀ i < n, perm.getD i 0 < n := by
  intro i hi
  have hlen : perm.length = n := hvp.1
  rw [List.getD_eq_getElem _ _ (by omega)]
  exact List.mem_range.mp (hvp.2.2.1.mem_iff.mp (List.getElem_mem (by omega)))

lemma validPair_right_inverse {n : Nat} {perm inv : List Nat} (hvp : ValidPair n perm inv) :
    ∀ j < n, inv.getD j 0 < n ∧ perm.getD (inv.getD j 0) 0 = j := by
  intro j hj
  have hlen : perm.length = n := hvp.1
  have hmem : j ∈ perm := hvp.2.2.1.mem_iff.mpr (List.mem_range.mpr hj)
  rcases List.getElem_of_mem hmem with ⟨i, hilt, hig⟩
  have hi : i < n := by omega
  have hpg : perm.getD i 0 = j := by rw [List.getD_eq_getElem _ _ hilt]; exact hig
  have hinv : inv.getD j 0 = i := by
    have := hvp.2.2.2 i hi
    rwa [hpg] at this
  exact ⟨hinv ▸ hi, by rw [hinv, hpg]⟩

lemma row_col_lt {A : CSR} (hWF : A.WF) (r : Nat) :
    ∀ cv ∈ A.row r, cv.1 < A.numCols := by
  intro cv hcv
  have h1 : cv ∈ A.colIndex.zip A.values :=
    List.mem_of_mem_drop (List.mem_of_mem_take hcv)
  have h2 : cv.1 ∈ A.colIndex := (List.of_mem_zip h1).1
  exact hWF.2.2.2.2.2.1 cv.1 h2

lemma CSR_Permute_eq_ok (A : CSR) (perm inv : List Nat)
    (hp : perm.length = A.numRows) (hi : inv.length = A.numRows) :
    CSR_Permute A perm inv = Except.ok (buildFromTriples A.numRows A.numCols
      (((List.range A.numRows).map (fun nr =>
        (A.row (perm.getD nr 0)).map (fun cv => (nr, inv.getD cv.1 0, cv.2)))).flatten)) := by
  unfold CSR_Permute
  rw [if_pos ⟨hp, hi⟩]

lemma permute_row (A : CSR) (perm inv : List Nat) (r : Nat) (hr : r < A.numRows) :
    (buildFromTriples A.numRows A.numCols
      (((List.range A.numRows).map (fun nr =>
        (A.row (perm.getD nr 0)).map (fun cv => (nr, inv.getD cv.1 0, cv.2)))).flatten)).row r
      = (A.row (perm.getD r 0)).map (fun cv => (inv.getD cv.1 0, cv.2)) := by
  rw [buildFromTriples_row _ _ _ r hr]
  have hsh : ((List.range A.numRows).map (fun nr =>
        (A.row (perm.getD nr 0)).map (fun cv => (nr, inv.getD cv.1 0, cv.2))))
      = ((List.range A.numRows).map (fun nr =>
        ((A.row (perm.getD nr 0)).map (fun cv => (inv.getD cv.1 0, cv.2))).map
          (fun cv => (nr, cv.1, cv.2)))) := by
    apply List.map_congr_left
    intro nr _
    rw [List.map_map]
    rfl
  rw [hsh, grouped_filter (fun nr => (A.row (perm.getD nr 0)).map
    (fun cv => (inv.getD cv.1 0, cv.2))) A.numRows r hr]
  simp [List.map_map]

lemma permuted_nonzeros (A : CSR) (perm inv : List Nat) :
    (buildFromTriples A.numRows A.numCols
      (((List.range A.numRows).map (fun nr =>
        (A.row (perm.getD nr 0)).map (fun cv => (nr, inv.getD cv.1 0, cv.2)))).flatten)).nonzeros
      = ((List.range A.numRows).map (fun r =>
          ((A.row (perm.getD r 0)).map (fun cv => (inv.getD cv.1 0, cv.2))).map
            (fun cv => (r, cv.1, cv.2)))).flatten := by
  unfold CSR.nonzeros
  congr 1
  apply List.map_congr_left
  intro r hr
  rw [permute_row A perm inv r (List.mem_range.mp hr)]

lemma nonzeros_map_val (A : CSR) :
    A.nonzeros.map (fun t => t.2.2)
      = ((List.range A.numRows).map (fun r => (A.row r).map Prod.snd)).flatten := by
  unfold CSR.nonzeros
  rw [List.map_flatten, List.map_map]
  congr 1
  apply List.map_congr_left
  intro r _
  simp [List.map_map]

lemma permute_values_perm (A : CSR) (perm inv : List Nat)
    (hvp : ValidPair A.numRows perm inv) :
    ((buildFromTriples A.numRows A.numCols
      (((List.range A.numRows).map (fun nr =>
        (A.row (perm.getD nr 0)).map (fun cv => (nr, inv.getD cv.1 0, cv.2)))).flatten)).nonzeros.map
          (fun t => t.2.2)).Perm
      (A.nonzeros.map (fun t => t.2.2)) := by
  rw [permuted_nonzeros A perm inv, nonzeros_map_val A, List.map_flatten, List.map_map]
  have h1 : ((List.range A.numRows).map
      ((List.map (fun t => t.2.2)) ∘ (fun r =>
        ((A.row (perm.getD r 0)).map (fun cv => (inv.getD cv.1 0, cv.2))).map
          (fun cv => (r, cv.1, cv.2)))))
      = (List.range A.numRows).map (fun r => (A.row (perm.getD r 0)).map Prod.snd) := by
    apply List.map_congr_left
    intro r _
    simp [List.map_map]
  rw [h1]
  have h2 : (List.range A.numRows).map (fun r => (A.row (perm.getD r 0)).map Prod.snd)
      = (perm.map (fun r => (A.row r).map Prod.snd)) := by
    have h3 : (List.range A.numRows).map (fun r => (A.row (perm.getD r 0)).map Prod.snd)
        = ((List.range A.numRows).map (fun i => perm.getD i 0)).map
            (fun r => (A.row r).map Prod.snd) := by
      rw [List.map_map]
      rfl
    rw [h3, ← hvp.1, map_getD_self]
  rw [h2]
  exact (hvp.2.2.1.map (fun r => (A.row r).map Prod.snd)).flatten

/-- The 3x3 scenario matrix of the spec, [[1,2,0],[0,3,4],[5,0,6]], in CSR form. -/
def exampleA : CSR where
  numRows := 3
  numCols := 3
  rowStart := [0, 2, 4, 6]
  colIndex := [0, 1, 1, 2, 0, 2]
  values := [1, 2, 3, 4, 5, 6]

/-- C2: for every CSR store and valid permutation pair, `CSR_Permute` yields a
store with the same nonzero count and the same multiset of stored values;
only positions change. -/
theorem permute_preserves_values (A : CSR) (perm inv : List Nat)
    (hvp : ValidPair A.numRows perm inv) :
    ∃ B, CSR_Permute A perm inv = Except.ok B ∧
      B.nonzeros.length = A.nonzeros.length ∧
      (B.nonzeros.map (fun t => t.2.2)).Perm (A.nonzeros.map (fun t => t.2.2)) := by
  refine ⟨_, CSR_Permute_eq_ok A perm inv hvp.1 hvp.2.1, ?_, permute_values_perm A perm inv hvp⟩
  have h := (permute_values_perm A perm inv hvp).length_eq
  simpa using h

/-- Witness for C2: the 3x3 scenario matrix with the cyclic permutation
perm = [2,0,1], inversePerm = [1,2,0]. -/
theorem permute_preserves_values_witness :
    ValidPair exampleA.numRows [2, 0, 1] [1, 2, 0] ∧
    ∃ B, CSR_Permute exampleA [2, 0, 1] [1, 2, 0] = Except.ok B ∧
      B.nonzeros.length = exampleA.nonzeros.length ∧
      (B.nonzeros.map (fun t => t.2.2)).Perm (exampleA.nonzeros.map (fun t => t.2.2)) :=
  ⟨by decide, permute_preserves_values exampleA [2, 0, 1] [1, 2, 0] (by decide)⟩

lemma roundtrip_nonzeros (A : CSR) (perm inv : List Nat) (hWF : A.WF)
    (hsq : A.numRows = A.numCols) (hvp : ValidPair A.numRows perm inv) :
    ∃ B C, CSR_Permute A perm inv = Except.ok B ∧ CSR_Permute B inv perm = Except.ok C ∧
      C.nonzeros = A.nonzeros := by
  refine ⟨_, _, CSR_Permute_eq_ok A perm inv hvp.1 hvp.2.1,
    CSR_Permute_eq_ok _ inv perm hvp.2.1 hvp.1, ?_⟩
  unfold CSR.nonzeros
  congr 1
  apply List.map_congr_left
  intro mr hmr
  have hmr2 : mr < A.numRows := List.mem_range.mp hmr
  have hinvlt := (validPair_right_inverse hvp mr hmr2).1
  have hpi := (validPair_right_inverse hvp mr hmr2).2
  rw [permute_row (buildFromTriples A.numRows A.numCols
      (((List.range A.numRows).map (fun nr =>
        (A.row (perm.getD nr 0)).map (fun cv => (nr, inv.getD cv.1 0, cv.2)))).flatten))
      inv perm mr hmr2,
    permute_row A perm inv _ hinvlt, hpi, List.map_map, List.map_map]
  apply List.map_congr_left
  intro cv hcv
  have hlt : cv.1 < A.numRows := hsq ▸ row_col_lt hWF mr cv hcv
  have h2 := (validPair_right_inverse hvp cv.1 hlt).2
  simp only [Function.comp]
  rw [h2]

/-- C3: for a well-formed square CSR store and valid permutation pair,
permuting and then permuting with the exact inverse pair restores the
original (row, col, value) triples, irrespective of internal storage order. -/
theorem permute_roundtrip (A : CSR) (perm inv : List Nat) (hWF : A.WF)
    (hsq : A.numRows = A.numCols) (hvp : ValidPair A.numRows perm inv) :
    ∃ B C, CSR_Permute A perm inv = Except.ok B ∧ CSR_Permute B inv perm = Except.ok C ∧
      C.nonzeros = A.nonzeros :=
  roundtrip_nonzeros A perm inv hWF hsq hvp

/-- Witness for C3: the 3x3 scenario matrix, cyclic permutation and its inverse. -/
theorem permute_roundtrip_witness :
    (exampleA.WF ∧ exampleA.numRows = exampleA.numCols ∧
      ValidPair exampleA.numRows [2, 0, 1] [1, 2, 0]) ∧
    ∃ B C, CSR_Permute exampleA [2, 0, 1] [1, 2, 0] = Except.ok B ∧
      CSR_Permute B [1, 2, 0] [2, 0, 1] = Except.ok C ∧
      C.nonzeros = exampleA.nonzeros :=
  ⟨⟨by decide, by decide, by decide⟩,
    permute_roundtrip exampleA [2, 0, 1] [1, 2, 0] (by decide) (by decide) (by decide)⟩

/-- C5: bandwidth is invariant under applying a valid permutation pair and
then its exact inverse pair: `CSR_GetBandwidth` of the
permuted-then-inverse-permuted matrix equals that of the original. -/
theorem bandwidth_roundtrip_invariant (A : CSR) (perm inv : List Nat) (hWF : A.WF)
    (hsq : A.numRows = A.numCols) (hvp : ValidPair A.numRows perm inv) :
    ∃ B C, CSR_Permute A perm inv = Except.ok B ∧ CSR_Permute B inv perm = Except.ok C ∧
      CSR_GetBandwidth C = CSR_GetBandwidth A := by
  rcases roundtrip_nonzeros A perm inv hWF hsq hvp with ⟨B, C, hB, hC, hnz⟩
  refine ⟨B, C, hB, hC, ?_⟩
  unfold CSR_GetBandwidth
  rw [hnz]

/-- Witness for C5: the 3x3 scenario matrix, cyclic permutation and its inverse. -/
theorem bandwidth_roundtrip_invariant_witness :
    (exampleA.WF ∧ exampleA.numRows = exampleA.numCols ∧
      ValidPair exampleA.numRows [2, 0, 1] [1, 2, 0]) ∧
    ∃ B C, CSR_Permute exampleA [2, 0, 1] [1, 2, 0] = Except.ok B ∧
      CSR_Permute B [1, 2, 0] [2, 0, 1] = Except.ok C ∧
      CSR_GetBandwidth C = CSR_GetBandwidth exampleA :=
  ⟨⟨by decide, by decide, by decide⟩,
    bandwidth_roundtrip_invariant exampleA [2, 0, 1] [1, 2, 0] (by decide) (by decide) (by decide)⟩

lemma nonzeros_filter_row (A : CSR) (r : Nat) (hr : r < A.numRows) :
    A.nonzeros.filter (fun t => t.1 = r) = (A.row r).map (fun cv => (r, cv.1, cv.2)) :=
  grouped_filter A.row A.numRows r hr

/-- C6: for a CSR store and a vector of length numCols,
`CSR_MultiplyWithVector` returns y of length numRows with `y[r]` the sum over
the stored entries (c, v) of row r of `v * x[c]`. -/
theorem multiply_rowwise_sums (A : CSR) (x : List ℚ) (hx : x.length = A.numCols) :
    ∃ y, CSR_MultiplyWithVector A x = Except.ok y ∧ y.length = A.numRows ∧
      ∀ r < A.numRows, y.getD r 0
        = ((A.nonzeros.filter (fun t => t.1 = r)).map (fun t => t.2.2 * x.getD t.2.1 0)).sum := by
  refine ⟨_, by unfold CSR_MultiplyWithVector; rw [if_pos hx], by simp, ?_⟩
  intro r hr
  rw [map_range_getD _ _ hr, nonzeros_filter_row A r hr, List.map_map]
  rfl

/-- Witness for C6: the spec's scenario — the matrix [[1,2,0],[0,3,4],[5,0,6]]
multiplied with x = [1,1,1] gives y = [3,7,11]. -/
theorem multiply_rowwise_sums_witness :
    ([1, 1, 1] : List ℚ).length = exampleA.numCols ∧
    (∃ y, CSR_MultiplyWithVector exampleA [1, 1, 1] = Except.ok y ∧
      y.length = exampleA.numRows ∧
      ∀ r < exampleA.numRows, y.getD r 0
        = ((exampleA.nonzeros.filter (fun t => t.1 = r)).map
            (fun t => t.2.2 * ([1, 1, 1] : List ℚ).getD t.2.1 0)).sum) ∧
    CSR_MultiplyWithVector exampleA [1, 1, 1] = Except.ok [3, 7, 11] :=
  ⟨by decide, multiply_rowwise_sums exampleA [1, 1, 1] (by decide), by
    simp [CSR_MultiplyWithVector, exampleA, CSR.row, List.range_succ]
    norm_num⟩

lemma foldr_max_le (l : List Nat) : ∀ a ∈ l, a ≤ l.foldr max 0 := by
  induction l with
  | nil => intro a ha; cases ha
  | cons b l ih =>
    intro a ha
    rcases List.mem_cons.mp ha with rfl | ha
    · exact Nat.le_max_left _ _
    · exact Nat.le_trans (ih a ha) (Nat.le_max_right _ _)

lemma foldr_max_mem (l : List Nat) (h : l ≠ []) : l.foldr max 0 ∈ l := by
  induction l with
  | nil => exact absurd rfl h
  | cons b l ih =>
    by_cases hl : l = []
    · subst hl; simp
    · rcases Nat.le_total b (l.foldr max 0) with hle | hle
      · rw [List.foldr_cons, Nat.max_eq_right hle]
        exact List.mem_cons_of_mem b (ih hl)
      · rw [List.foldr_cons, Nat.max_eq_left hle]
        exact List.mem_cons_self b l

/-- A rectangular 2x3 store: bandwidth is still defined (max |r - c| over the
stored entries) and causes no failure. -/
def rectA : CSR where
  numRows := 2
  numCols := 3
  rowStart := [0, 1, 2]
  colIndex := [2, 0]
  values := [1, 2]

/-- C7: `CSR_GetBandwidth` returns the maximum of |r - c| over the stored
entries — an upper bound on every entry's distance, 0 when there is no entry,
and attained by some entry otherwise — on square or rectangular stores alike. -/
theorem bandwidth_is_max_distance (A : CSR) :
    (∀ t ∈ A.nonzeros, ((t.1 : ℤ) - (t.2.1 : ℤ)).natAbs ≤ CSR_GetBandwidth A) ∧
    (A.nonzeros = [] → CSR_GetBandwidth A = 0) ∧
    (A.nonzeros ≠ [] → ∃ t ∈ A.nonzeros,
      ((t.1 : ℤ) - (t.2.1 : ℤ)).natAbs = CSR_GetBandwidth A) := by
  refine ⟨?_, ?_, ?_⟩
  · intro t ht
    exact foldr_max_le _ _ (List.mem_map_of_mem (fun t => ((t.1 : ℤ) - (t.2.1 : ℤ)).natAbs) ht)
  · intro h
    unfold CSR_GetBandwidth
    rw [h]
    rfl
  · intro h
    have hm : (A.nonzeros.map (fun t => ((t.1 : ℤ) - (t.2.1 : ℤ)).natAbs)) ≠ [] := by
      simpa using h
    have := foldr_max_mem _ hm
    rcases List.mem_map.mp this with ⟨t, ht, heq⟩
    exact ⟨t, ht, heq⟩

/-- Witness for C7 at a rectangular store with nonzeros: the maximum is
attained, and equals 2 there. -/
theorem bandwidth_is_max_distance_witness :
    rectA.nonzeros ≠ [] ∧
    (∃ t ∈ rectA.nonzeros, ((t.1 : ℤ) - (t.2.1 : ℤ)).natAbs = CSR_GetBandwidth rectA) ∧
    CSR_GetBandwidth rectA = 2 :=
  ⟨by decide, (bandwidth_is_max_distance rectA).2.2 (by decide), by decide⟩

/-- C8: `CSR_Create` fails with `InvalidIndex` on any out-of-range coordinate,
fails with `DuplicateEntry` when two triples share a (row, col) pair, and on
failure no matrix is produced (the result is an error, never a store). -/
theorem create_error_conditions (n m : Nat) (ts : List (Nat × Nat × ℚ)) :
    ((∃ t ∈ ts, n ≤ t.1 ∨ m ≤ t.2.1) →
      CSR_Create n m ts = Except.error CSRError.InvalidIndex) ∧
    ((∀ t ∈ ts, t.1 < n ∧ t.2.1 < m) → ¬(ts.map (fun t => (t.1, t.2.1))).Nodup →
      CSR_Create n m ts = Except.error CSRError.DuplicateEntry) ∧
    (∀ e, CSR_Create n m ts = Except.error e → ∀ B, CSR_Create n m ts ≠ Except.ok B) := by
  refine ⟨?_, ?_, ?_⟩
  · rintro ⟨t, ht, hbad⟩
    unfold CSR_Create
    rw [if_neg]
    intro hall
    have := hall t ht
    omega
  · intro hall hdup
    unfold CSR_Create
    rw [if_pos hall, if_neg hdup]
  · intro e he B hB
    rw [he] at hB
    exact Except.noConfusion hB

/-- Witness for C8 at the spec's scenario: a duplicated (0,0) coordinate is
rejected with `DuplicateEntry`, not silently combined. -/
theorem create_error_conditions_witness :
    (∀ t ∈ [((0 : Nat), (0 : Nat), (1 : ℚ)), (0, 0, 2)], t.1 < 2 ∧ t.2.1 < 2) ∧
    ¬(([((0 : Nat), (0 : Nat), (1 : ℚ)), (0, 0, 2)]).map (fun t => (t.1, t.2.1))).Nodup ∧
    CSR_Create 2 2 [((0 : Nat), (0 : Nat), (1 : ℚ)), (0, 0, 2)]
      = Except.error CSRError.DuplicateEntry :=
  ⟨by decide, by decide,
    (create_error_conditions 2 2 [(0, 0, 1), (0, 0, 2)]).2.1 (by decide) (by decide)⟩

/-- C9: `CSR_MultiplyWithVector` fails with `DimensionMismatch` exactly when
the vector length differs from numCols, and otherwise returns a vector of
length numRows. -/
theorem multiply_dimension_check (A : CSR) (x : List ℚ) :
    (x.length ≠ A.numCols →
      CSR_MultiplyWithVector A x = Except.error CSRError.DimensionMismatch) ∧
    (x.length = A.numCols →
      ∃ y, CSR_MultiplyWithVector A x = Except.ok y ∧ y.length = A.numRows) := by
  constructor
  · intro h
    unfold CSR_MultiplyWithVector
    rw [if_neg h]
  · intro h
    unfold CSR_MultiplyWithVector
    rw [if_pos h]
    exact ⟨_, rfl, by simp⟩

/-- Witness for C9: a length-2 vector against the 3-column scenario matrix is
rejected with `DimensionMismatch`. -/
theorem multiply_dimension_check_witness :
    ([1, 1] : List ℚ).length ≠ exampleA.numCols ∧
    CSR_MultiplyWithVector exampleA [1, 1] = Except.error CSRError.DimensionMismatch :=
  ⟨by decide, (multiply_dimension_check exampleA [1, 1]).1 (by decide)⟩

/-- Modelled from the spec: section 5 — every operation reads the immutable
store and never mutates it; a C call on a const handle is modelled as
returning the store threaded through the call alongside the outputs written
to the caller's buffers. -/
def CSR_MultiplyWithVector_call (A : CSR) (x : List ℚ) : CSR × Except CSRError (List ℚ) :=
  (A, CSR_MultiplyWithVector A x)

/-- Modelled from the spec: the RCM engine reads the store and writes only
`perm` and `inversePerm` (sections 4.4 and 5). -/
def CSR_GetRCMPemutation_call (A : CSR) : CSR × (List Nat × List Nat) :=
  (A, CSR_GetRCMPemutation A)

/-- Modelled from the spec: the permutation applier never mutates its input
and returns a freshly built store (sections 4.5 and 5). -/
def CSR_Permute_call (A : CSR) (perm inv : List Nat) : CSR × Except CSRError CSR :=
  (A, CSR_Permute A perm inv)

/-- C10: `CSR_MultiplyWithVector`, `CSR_GetRCMPemutation` and `CSR_Permute`
leave the input store unchanged — after each call the store (its rowStart,
colIndex, values and dimensions) is exactly the input store, and the results
go only to the call's outputs. -/
theorem const_input_not_mutated (A : CSR) (x : List ℚ) (perm inv : List Nat) :
    (CSR_MultiplyWithVector_call A x).1 = A ∧
    (CSR_GetRCMPemutation_call A).1 = A ∧
    (CSR_Permute_call A perm inv).1 = A :=
  ⟨rfl, rfl, rfl⟩
